import Mathlib

/-!
Verification of the chomper SMARTS pipeline (scanner, structural parser,
evaluator) against its natural-language specification.

The scanner is embedded from src/src/smarts/scanner.rs and the evaluator
from src/src/smarts/evaluator.rs. The data model (Chiral, Atom, BondOrder,
Bond, Smarts) is embedded from src/src/smarts.rs.

The final expression-producing structural parser is not present under
src/: the file src/src/smarts/parser.rs is an earlier development stage
that returns an atom/bond pair directly, refers to a Token.AtAt variant
and a Bond.ring_marker field that exist nowhere else in the tree, and is
therefore not the definition that evaluator.rs (which imports
parser::Expr) and smarts.rs (which feeds parser output to Evaluator::new)
compile against. Definitions for that parser below are modelled from the
spec (sections 4.2 and 3) and are marked as such in their doc comments.

Panics in the Rust source (unwrap, todo, unreachable, panic) are embedded
as Except error values. Machine integers are Nat; the one place where the
64-bit width of usize is observable (str::parse::<usize> failing on
overflow inside the scanner) is embedded explicitly.

Recursive procedures are embedded with an explicit fuel parameter so that
every definition is executable by kernel reduction; fuel exhaustion is a
distinguished error value, and the termination theorem for the parser
shows that the fuel bound used by the pipeline is never hit for
End-terminated token sequences.
-/

namespace Chomper

/-- Tokens produced by the scanner, mirroring enum Token in
src/src/smarts/scanner.rs. -/
inductive Token where
  | LBrack
  | RBrack
  | LParen
  | RParen
  | Colon
  | Dash
  | At
  | Atom (n : Nat)
  | HCount (n : Nat)
  | Digit (n : Nat)
  | Plus (n : Nat)
  | DoubleBond
  | TripleBond
  | UpBond
  | DownBond
  | End
deriving DecidableEq, Repr

/-- Mirrors Token::is_end in scanner.rs. -/
def Token.is_end : Token → Bool
  | Token.End => true
  | _ => false

/-- Mirrors get_digits in scanner.rs: split off the maximal leading run of
ascii digits, returning the run and the remaining characters (the Rust
version consumes the run from a peekable char iterator). -/
def get_digits : List Char → List Char × List Char
  | [] => ([], [])
  | c :: cs =>
    if c.isDigit then
      let p := get_digits cs
      (c :: p.1, p.2)
    else ([], c :: cs)

/-- Numeric value of a list of ascii digits, most significant first. -/
def digitsVal (ds : List Char) : Nat :=
  ds.foldl (fun acc c => 10 * acc + (c.toNat - 48)) 0

/-- Mirrors str::parse::<usize> applied to a string of ascii digits: fails
on the empty string and on overflow of the 64-bit usize. -/
def parseUsize (ds : List Char) : Option Nat :=
  if ds.isEmpty then none
  else if digitsVal ds < 2 ^ 64 then some (digitsVal ds) else none

/-- Scanner failures: the panic on an unrecognized character, the panic of
parse().unwrap() on usize overflow, and fuel exhaustion of the embedding. -/
inductive ScanErr where
  | unrecognized (c : Char)
  | overflow
  | fuel
deriving DecidableEq, Repr

/-- Outcome of one iteration of the scan loop: the token pushed together
with the characters left unconsumed, or a panic. -/
inductive ScanAction where
  | tok (t : Token) (rest : List Char)
  | err (e : ScanErr)
deriving DecidableEq, Repr

/-- One arm of the match on the scanned character in scan of scanner.rs:
compute the token to push and consume any trailing digit run the arm
absorbs. -/
def scanStep (c : Char) (cs : List Char) : ScanAction :=
  if c = '[' then .tok Token.LBrack cs
  else if c = ']' then .tok Token.RBrack cs
  else if c = '(' then .tok Token.LParen cs
  else if c = ')' then .tok Token.RParen cs
  else if c = ':' then .tok Token.Colon cs
  else if c = '-' then .tok Token.Dash cs
  else if c = '@' then .tok Token.At cs
  else if c = '=' then .tok Token.DoubleBond cs
  else if c = '\\' then .tok Token.DownBond cs
  else if c = '/' then .tok Token.UpBond cs
  else if c = '#' then
    if (get_digits cs).1.isEmpty then .tok Token.TripleBond cs
    else
      match parseUsize (get_digits cs).1 with
      | some n => .tok (Token.Atom n) (get_digits cs).2
      | none => .err ScanErr.overflow
  else if c = 'H' then
    .tok (Token.HCount ((parseUsize (get_digits cs).1).getD 1)) (get_digits cs).2
  else if c = '+' then
    .tok (Token.Plus ((parseUsize (get_digits cs).1).getD 1)) (get_digits cs).2
  else if c.isDigit then
    match parseUsize (c :: (get_digits cs).1) with
    | some n => .tok (Token.Digit n) (get_digits cs).2
    | none => .err ScanErr.overflow
  else .err (ScanErr.unrecognized c)

/-- Fuel-indexed scan loop from scanner.rs: push one token per iteration,
append End when the characters run out. -/
def scanF : Nat → List Char → Except ScanErr (List Token)
  | 0, _ => .error ScanErr.fuel
  | _ + 1, [] => .ok [Token.End]
  | f + 1, c :: cs =>
    match scanStep c cs with
    | .tok t rest => (scanF f rest).map (fun ts => t :: ts)
    | .err e => .error e

/-- Mirrors scan in scanner.rs. One unit of fuel is consumed per scanned
character run, so length + 1 fuel always suffices. -/
def scan (s : List Char) : Except ScanErr (List Token) :=
  scanF (s.length + 1) s

/-- Chirality variants, mirroring enum Chiral in src/src/smarts.rs. -/
inductive Chiral where
  | Cw
  | Acw
  | None
deriving DecidableEq, Repr

/-- Mirrors struct Atom in src/src/smarts.rs. -/
structure Atom where
  atomic_number : Nat
  n_hydrogens : Nat
  charge : Int
  chirality : Chiral
  mol_index : Nat
deriving DecidableEq, Repr

/-- Mirrors enum BondOrder in src/src/smarts.rs. -/
inductive BondOrder where
  | Single
  | Double
  | Triple
  | Aromatic
  | Ring
  | Up
  | Down
deriving DecidableEq, Repr

/-- Mirrors struct Bond in src/src/smarts.rs. -/
structure Bond where
  atom1 : Nat
  atom2 : Nat
  order : BondOrder
deriving DecidableEq, Repr

/-- Mirrors struct Smarts in src/src/smarts.rs. -/
structure Smarts where
  atoms : List Atom
  bonds : List Bond
deriving DecidableEq, Repr

/-- Modelled from the spec: the Expression variant of spec section 3 (an
atom descriptor, a bond-order descriptor, a grouping wrapping a
sub-sequence, or a ring-closure connector label). This is the enum
parser::Expr that evaluator.rs imports; its definition is absent from
src/ (the parser.rs present there is an earlier stage without it). -/
inductive Expr where
  | atom (a : Atom)
  | bond (o : BondOrder)
  | grouping (g : List Expr)
  | connect (n : Nat)

/-- Mirrors Expr::is_atom as used by prev_atom in evaluator.rs. -/
def Expr.is_atom : Expr → Bool
  | Expr.atom _ => true
  | _ => false

/-- Mirrors Expr::is_connect as used by next_atom in evaluator.rs. -/
def Expr.is_connect : Expr → Bool
  | Expr.connect _ => true
  | _ => false

/-- Mirrors Expr::is_grouping as used by next_atom in evaluator.rs. -/
def Expr.is_grouping : Expr → Bool
  | Expr.grouping _ => true
  | _ => false

/-- Parser failures: fuel exhaustion of the embedding, the panic of
indexing tokens out of bounds in Parser::peek, the EOF panic while
parsing an atom, the unknown atom component panic, the unknown bond
component panic, and the unreachable panic when a label separator is not
followed by a digit. -/
inductive ParseErr where
  | fuel
  | index
  | eofInAtom
  | unknownAtom
  | unknownBond
  | colonNoIndex
deriving DecidableEq, Repr

/-- Mirrors struct Parser of src/src/smarts/parser.rs: the token sequence
and a forward cursor. -/
structure ParserState where
  tokens : List Token
  cur : Nat
deriving Repr

/-- Mirrors Parser::peek (tokens[cur]); indexing out of bounds is the
panic of the Rust Index impl. -/
def peekT (s : ParserState) : Except ParseErr Token :=
  match s.tokens[s.cur]? with
  | some t => .ok t
  | none => .error ParseErr.index

/-- Mirrors Parser::advance: return the current token and advance the
cursor unless the current token is End. -/
def advanceT (s : ParserState) : Except ParseErr (Token × ParserState) :=
  match peekT s with
  | .error e => .error e
  | .ok t =>
    if t.is_end then .ok (t, s)
    else .ok (t, { s with cur := s.cur + 1 })

/-- Modelled from the spec (section 4.2, atom descriptor parsing): the
loop of Parser::atom after the opening bracket has been discarded.
Repeatedly consume tokens: an atomic-number token sets the atomic number,
a hydrogen-count token the hydrogen count, a label separator must be
followed by a bare integer which becomes the molecule-local index, a
charge-magnitude token sets a positive charge, a bare dash sets charge -1
unless immediately followed by a bare integer whose negation it becomes,
a single stereo marker sets anticlockwise and a doubled one clockwise,
a closing bracket stops, end-of-input is fatal, and any other token is an
unknown atom component error. -/
def parseAtomB : Nat → ParserState → Atom → Except ParseErr (Atom × ParserState)
  | 0, _, _ => .error ParseErr.fuel
  | f + 1, s, acc =>
    match advanceT s with
    | .error e => .error e
    | .ok (t, s1) =>
      match t with
      | Token.Atom n => parseAtomB f s1 { acc with atomic_number := n }
      | Token.HCount n => parseAtomB f s1 { acc with n_hydrogens := n }
      | Token.Colon =>
        match advanceT s1 with
        | .error e => .error e
        | .ok (t2, s2) =>
          match t2 with
          | Token.Digit i => parseAtomB f s2 { acc with mol_index := i }
          | _ => .error ParseErr.colonNoIndex
      | Token.Plus n => parseAtomB f s1 { acc with charge := (n : Int) }
      | Token.Dash =>
        match peekT s1 with
        | .error e => .error e
        | .ok (Token.Digit n) =>
          match advanceT s1 with
          | .error e => .error e
          | .ok (_, s2) => parseAtomB f s2 { acc with charge := -(n : Int) }
        | .ok _ => parseAtomB f s1 { acc with charge := -1 }
      | Token.At =>
        match peekT s1 with
        | .error e => .error e
        | .ok Token.At =>
          match advanceT s1 with
          | .error e => .error e
          | .ok (_, s2) => parseAtomB f s2 { acc with chirality := Chiral.Cw }
        | .ok _ => parseAtomB f s1 { acc with chirality := Chiral.Acw }
      | Token.RBrack => .ok (acc, s1)
      | Token.End => .error ParseErr.eofInAtom
      | _ => .error ParseErr.unknownAtom

/-- Modelled from the spec: Parser::atom discards the opening bracket and
runs the descriptor loop on an atom with all fields at their defaults
(atomic number 0, hydrogen count 0, charge 0, chirality none, index 0). -/
def parseAtomE (f : Nat) (s : ParserState) : Except ParseErr (Atom × ParserState) :=
  match advanceT s with
  | .error e => .error e
  | .ok (_, s1) => parseAtomB f s1 ⟨0, 0, 0, Chiral.None, 0⟩

/-- The bond-symbol table of spec section 4.2: which single token denotes
which bond order. -/
def bondOf : Token → Option BondOrder
  | Token.Dash => some BondOrder.Single
  | Token.DoubleBond => some BondOrder.Double
  | Token.Colon => some BondOrder.Aromatic
  | Token.TripleBond => some BondOrder.Triple
  | Token.At => some BondOrder.Ring
  | Token.DownBond => some BondOrder.Down
  | Token.UpBond => some BondOrder.Up
  | _ => none

/-- Modelled from the spec (section 4.2, bond-order expression parsing):
consume exactly one token and map it through the bond-symbol table; any
other token is a fatal unknown bond component error. -/
def parseBondE (s : ParserState) : Except ParseErr (BondOrder × ParserState) :=
  match advanceT s with
  | .error e => .error e
  | .ok (t, s1) =>
    match bondOf t with
    | some o => .ok (o, s1)
    | none => .error ParseErr.unknownBond

/-- Modelled from the spec (section 4.2, top-level loop): until the
end-of-input token is current, an atom-open token yields an Atom
expression, a group-open token a Grouping expression (recursive parse,
then the closing token is consumed), a group-close token stops the
recursive call, a bare integer token yields a Connector expression, and
anything else is parsed as a bond-order expression. -/
def parseLoop : Nat → ParserState → Except ParseErr (List Expr × ParserState)
  | 0, _ => .error ParseErr.fuel
  | f + 1, s =>
    match peekT s with
    | .error e => .error e
    | .ok Token.End => .ok ([], s)
    | .ok Token.RParen => .ok ([], s)
    | .ok Token.LBrack =>
      match parseAtomE f s with
      | .error e => .error e
      | .ok (a, s1) =>
        match parseLoop f s1 with
        | .error e => .error e
        | .ok (es, s2) => .ok (Expr.atom a :: es, s2)
    | .ok Token.LParen =>
      match advanceT s with
      | .error e => .error e
      | .ok (_, s1) =>
        match parseLoop f s1 with
        | .error e => .error e
        | .ok (g, s2) =>
          match advanceT s2 with
          | .error e => .error e
          | .ok (_, s3) =>
            match parseLoop f s3 with
            | .error e => .error e
            | .ok (es, s4) => .ok (Expr.grouping g :: es, s4)
    | .ok (Token.Digit n) =>
      match advanceT s with
      | .error e => .error e
      | .ok (_, s1) =>
        match parseLoop f s1 with
        | .error e => .error e
        | .ok (es, s2) => .ok (Expr.connect n :: es, s2)
    | .ok _ =>
      match parseBondE s with
      | .error e => .error e
      | .ok (o, s1) =>
        match parseLoop f s1 with
        | .error e => .error e
        | .ok (es, s2) => .ok (Expr.bond o :: es, s2)

/-- Entry point of the structural parser on a scanned token sequence:
cursor at 0, with fuel length + 1, which the termination theorem below
shows is never exhausted on End-terminated sequences. -/
def parseTokens (ts : List Token) : Except ParseErr (List Expr) :=
  (parseLoop (ts.length + 1) ⟨ts, 0⟩).map (fun p => p.1)

/-- Evaluator failures, each mirroring one panic site in
src/src/smarts/evaluator.rs, plus fuel exhaustion of the embedding. -/
inductive EvalErr where
  | fuel
  | index
  | prevAtomNone
  | prevAtomNotAtom
  | peekNone
  | afterBondBad
  | ctabMissing
  | ctabEmpty
  | lastAtomNone
  | groupPeekNone
  | groupBad
  | bareConnect
deriving DecidableEq, Repr

/-- The connection table of Evaluator::ctab: a map from ring-closure label
to the stack of pending atom indices, embedded as an association list
with unique keys (HashMap entries are accessed only by key). -/
abbrev Ctab := List (Nat × List Nat)

/-- Mirrors the ctab update in Evaluator::atom and Evaluator::grouping:
self.ctab.entry(n).or_insert(Vec::new()).push(v). -/
def ctabPush (c : Ctab) (n v : Nat) : Ctab :=
  match c with
  | [] => [(n, [v])]
  | (k, s) :: rest =>
    if k = n then (k, s ++ [v]) :: rest
    else (k, s) :: ctabPush rest n v

/-- Mirrors Evaluator::get_connection:
self.ctab.get_mut(&n).unwrap().pop().unwrap(), the two unwrap panics
becoming the missing-label and empty-stack errors. -/
def ctabPop (c : Ctab) (n : Nat) : Except EvalErr (Nat × Ctab) :=
  match c with
  | [] => .error EvalErr.ctabMissing
  | (k, s) :: rest =>
    if k = n then
      match s.getLast? with
      | some v => .ok (v, (k, s.dropLast) :: rest)
      | none => .error EvalErr.ctabEmpty
    else
      match ctabPop rest n with
      | .error e => .error e
      | .ok (v, c2) => .ok (v, (k, s) :: c2)

/-- Mirrors prev_atom in evaluator.rs: search exprs for the first atom
expression strictly before index cur - 1, scanning downward. -/
def prev_atom (exprs : List Expr) (cur : Nat) : Option Expr :=
  if cur = 0 then none
  else
    (List.range (cur - 1)).reverse.findSome? (fun p =>
      match exprs[p]? with
      | some r => if r.is_atom then some r else none
      | none => none)

/-- The accumulating state of Evaluator: the result atom list, the result
bond list, and the connection table. -/
structure EvalState where
  atoms : List Atom
  bonds : List Bond
  ctab : Ctab
deriving DecidableEq, Repr

/-- Mirrors the atom1 computation of Evaluator::bond: unwrap the result of
prev_atom (panicking when none) and match it, where every non-atom
variant is a todo panic; called with the cursor position just after the
bond expression. -/
def bondAtom1 (exprs : List Expr) (cur : Nat) : Except EvalErr Nat :=
  match prev_atom exprs cur with
  | some (Expr.atom a) => .ok a.mol_index
  | some _ => .error EvalErr.prevAtomNotAtom
  | none => .error EvalErr.prevAtomNone

/-- Mirrors the atom1 computation in the Bond arm of Evaluator::grouping:
the first atom in the group before position i + 1, or, when the bond is
at the start of the group, the last atom already appended to the shared
result list (atoms.last().unwrap(), panicking when empty). -/
def groupAtom1 (g : List Expr) (i : Nat) (st : EvalState) : Except EvalErr Nat :=
  match prev_atom g (i + 1) with
  | some (Expr.atom a) => .ok a.mol_index
  | none =>
    match st.atoms.getLast? with
    | some a => .ok a.mol_index
    | none => .error EvalErr.lastAtomNone
  | some _ => .error EvalErr.prevAtomNotAtom

/-- Mirrors Evaluator::grouping: walk the group with a peekable iterator.
An atom followed by a connector pushes its index onto that label's stack;
a bond resolves atom1 via groupAtom1 and atom2 from the next expression
(an atom directly, or a connector popped from the table), normalizes the
pair to (min, max) and appends the bond; a nested grouping recurses with
the shared state; a bare connector is a panic. -/
def evalGroup : Nat → List Expr → Nat → EvalState → Except EvalErr EvalState
  | 0, _, _, _ => .error EvalErr.fuel
  | f + 1, g, i, st =>
    match g[i]? with
    | none => .ok st
    | some (Expr.atom a) =>
      match g[i + 1]? with
      | some (Expr.connect n) =>
        evalGroup f g (i + 2)
          { st with atoms := st.atoms ++ [a], ctab := ctabPush st.ctab n a.mol_index }
      | _ => evalGroup f g (i + 1) { st with atoms := st.atoms ++ [a] }
    | some (Expr.bond o) =>
      match groupAtom1 g i st with
      | .error e => .error e
      | .ok a1 =>
        match g[i + 1]? with
        | none => .error EvalErr.groupPeekNone
        | some (Expr.atom a) =>
          evalGroup f g (i + 1)
            { st with bonds :=
                st.bonds ++ [⟨min a1 a.mol_index, max a1 a.mol_index, o⟩] }
        | some (Expr.connect n) =>
          match ctabPop st.ctab n with
          | .error e => .error e
          | .ok (a2, c2) =>
            evalGroup f g (i + 2)
              { st with bonds := st.bonds ++ [⟨min a1 a2, max a1 a2, o⟩],
                        ctab := c2 }
        | some _ => .error EvalErr.groupBad
    | some (Expr.grouping h) =>
      match evalGroup f h 0 st with
      | .error e => .error e
      | .ok st2 => evalGroup f g (i + 1) st2
    | some (Expr.connect _) => .error EvalErr.bareConnect

/-- Mirrors Evaluator::eval with Evaluator::inner: while not at the end,
take the next expression. An atom followed by a connector pushes its
index onto that label's stack and is appended to the atom list; a bond
resolves atom1 as the nearest preceding atom expression and atom2 from
the next expression (an atom directly, or a connector popped from the
table) and appends the bond without normalization; a grouping is
evaluated with the shared state; a bare connector is a todo panic. -/
def evalLoop : Nat → List Expr → Nat → EvalState → Except EvalErr EvalState
  | 0, _, _, _ => .error EvalErr.fuel
  | f + 1, exprs, cur, st =>
    if cur = exprs.length then .ok st
    else
      match exprs[cur]? with
      | none => .error EvalErr.index
      | some (Expr.atom a) =>
        match exprs[cur + 1]? with
        | some (Expr.connect n) =>
          evalLoop f exprs (cur + 2)
            { st with atoms := st.atoms ++ [a], ctab := ctabPush st.ctab n a.mol_index }
        | _ => evalLoop f exprs (cur + 1) { st with atoms := st.atoms ++ [a] }
      | some (Expr.bond o) =>
        match bondAtom1 exprs (cur + 1) with
        | .error e => .error e
        | .ok a1 =>
          match exprs[cur + 1]? with
          | none => .error EvalErr.peekNone
          | some (Expr.atom a) =>
            evalLoop f exprs (cur + 1)
              { st with bonds := st.bonds ++ [⟨a1, a.mol_index, o⟩] }
          | some (Expr.connect n) =>
            match ctabPop st.ctab n with
            | .error e => .error e
            | .ok (a2, c2) =>
              evalLoop f exprs (cur + 2)
                { st with bonds := st.bonds ++ [⟨a1, a2, o⟩], ctab := c2 }
          | some _ => .error EvalErr.afterBondBad
      | some (Expr.grouping g) =>
        match evalGroup f g 0 st with
        | .error e => .error e
        | .ok st2 => evalLoop f exprs (cur + 1) st2
      | some (Expr.connect _) => .error EvalErr.bareConnect

/-- Entry point of the evaluator: empty accumulators and connection table.
The fuel parameter is an embedding artifact; one unit is consumed per
visited expression plus one per finished walk, so any bound above the
total node count of the sequence suffices. -/
def evalExprs (fuel : Nat) (exprs : List Expr) : Except EvalErr (List Atom × List Bond) :=
  (evalLoop fuel exprs 0 ⟨[], [], []⟩).map (fun st => (st.atoms, st.bonds))

/-- Combined pipeline failures. -/
inductive Err where
  | scanE (e : ScanErr)
  | parseE (e : ParseErr)
  | evalE (e : EvalErr)
deriving DecidableEq, Repr

/-- Mirrors Smarts::parse in src/src/smarts.rs: scan, parse, evaluate. -/
def Smarts.parse (s : String) : Except Err Smarts :=
  match scan s.data with
  | .error e => .error (Err.scanE e)
  | .ok tokens =>
    match parseTokens tokens with
    | .error e => .error (Err.parseE e)
    | .ok exprs =>
      match evalExprs (2 * tokens.length + 2) exprs with
      | .error e => .error (Err.evalE e)
      | .ok (atoms, bonds) => .ok ⟨atoms, bonds⟩

/-! Claim theorems. -/

/-- C1: for the input [#6H3:1]-[#6H2:2]-[#7H:3]-[#7H:4]-[#6H3:5], the
pipeline (scan, then parse, then evaluate) returns exactly the atoms
(6,3,0,none,1),(6,2,0,none,2),(7,1,0,none,3),(7,1,0,none,4),(6,3,0,none,5)
in appearance order and exactly the bonds
(1,2,single),(2,3,single),(3,4,single),(4,5,single) in that order. -/
theorem pipeline_chain_scenario :
    Smarts.parse (r"[#6H3:1]-[#6H2:2]-[#7H:3]-[#7H:4]-[#6H3:5]") =
      .ok ⟨[⟨6, 3, 0, Chiral.None, 1⟩, ⟨6, 2, 0, Chiral.None, 2⟩,
            ⟨7, 1, 0, Chiral.None, 3⟩, ⟨7, 1, 0, Chiral.None, 4⟩,
            ⟨6, 3, 0, Chiral.None, 5⟩],
           [⟨1, 2, BondOrder.Single⟩, ⟨2, 3, BondOrder.Single⟩,
            ⟨3, 4, BondOrder.Single⟩, ⟨4, 5, BondOrder.Single⟩]⟩ := by
  rfl

/-- C2 counterexample: on the exact input [#6:1]([#8:2])=[#7:3] named by
the claim, the pipeline produces no bond at all between atom 1 and atom 2
(the grouping contains no bond expression, so the only bond in the result
is the double bond 1-3), refuting the claimed output at this input. -/
theorem grouping_without_bond_no_edge :
    Smarts.parse (r"[#6:1]([#8:2])=[#7:3]") =
      .ok ⟨[⟨6, 0, 0, Chiral.None, 1⟩, ⟨8, 0, 0, Chiral.None, 2⟩,
            ⟨7, 0, 0, Chiral.None, 3⟩],
           [⟨1, 3, BondOrder.Double⟩]⟩ ∧
    ∀ b ∈ [(⟨1, 3, BondOrder.Double⟩ : Bond)], ¬(b.atom1 = 1 ∧ b.atom2 = 2) := by
  exact ⟨by rfl, by decide⟩

/-- C2 amended: when the grouping contains an explicit bond expression,
as in [#6:1](-[#8:2])=[#7:3], the bond at the start of the grouping
resolves its first endpoint against the last atom appended to the shared
result list (atom 1, the atom preceding the opening parenthesis), giving
the single bond 1-2, and the double bond 1-3 follows after the grouping
closes. -/
theorem grouping_bond_resolves_before_group :
    Smarts.parse (r"[#6:1](-[#8:2])=[#7:3]") =
      .ok ⟨[⟨6, 0, 0, Chiral.None, 1⟩, ⟨8, 0, 0, Chiral.None, 2⟩,
            ⟨7, 0, 0, Chiral.None, 3⟩],
           [⟨1, 2, BondOrder.Single⟩, ⟨1, 3, BondOrder.Double⟩]⟩ := by
  rfl

/-- C3 counterexample: a ring-closure label opened at atom 1 and closed at
atom 3 at the top level of the expression sequence (the sequence the
parser produces for [#6:1]1-[#7:2]-[#8:3]-1) yields the closure bond with
endpoints (3, 1), not the normalized pair (1, 3): top-level bond
resolution in Evaluator::bond performs no min/max normalization. -/
theorem top_level_closure_not_normalized :
    evalExprs 20
      [Expr.atom ⟨6, 0, 0, Chiral.None, 1⟩, Expr.connect 1,
       Expr.bond BondOrder.Single, Expr.atom ⟨7, 0, 0, Chiral.None, 2⟩,
       Expr.bond BondOrder.Single, Expr.atom ⟨8, 0, 0, Chiral.None, 3⟩,
       Expr.bond BondOrder.Single, Expr.connect 1] =
      .ok ([⟨6, 0, 0, Chiral.None, 1⟩, ⟨7, 0, 0, Chiral.None, 2⟩,
            ⟨8, 0, 0, Chiral.None, 3⟩],
           [⟨1, 2, BondOrder.Single⟩, ⟨2, 3, BondOrder.Single⟩,
            ⟨3, 1, BondOrder.Single⟩]) ∧
    (⟨1, 3, BondOrder.Single⟩ : Bond) ∉
      [(⟨1, 2, BondOrder.Single⟩ : Bond), ⟨2, 3, BondOrder.Single⟩,
       ⟨3, 1, BondOrder.Single⟩] := by
  exact ⟨by rfl, by decide⟩

/-- C6: the malformed input [#6H3:1]- (dangling bond with no following
atom) fails with a fatal evaluation error (the unwrap panic of peek in
Evaluator::bond); it does not return a result containing a bond with an
endpoint of 0. -/
theorem dangling_bond_fatal :
    Smarts.parse (r"[#6H3:1]-") = .error (Err.evalE EvalErr.peekNone) := by
  rfl

/-- C8: inside an atom descriptor a single stereo marker sets chirality to
anticlockwise and a doubled one to clockwise; in particular scanning and
parsing [#6@@:1] yields the atom with clockwise chirality, and [#6@:1]
the atom with anticlockwise chirality. -/
theorem stereo_marker_chirality :
    Smarts.parse (r"[#6@@:1]") = .ok ⟨[⟨6, 0, 0, Chiral.Cw, 1⟩], []⟩ ∧
    Smarts.parse (r"[#6@:1]") = .ok ⟨[⟨6, 0, 0, Chiral.Acw, 1⟩], []⟩ := by
  exact ⟨by rfl, by rfl⟩

/-- C9 counterexample: a hash followed by one or more digits does not
always yield an atomic-number token: when the digit run does not fit in
the 64-bit usize (here 2 to the power 64 itself), parse().unwrap() in the
scanner panics, so scanning fails instead of producing a token. -/
theorem hash_digits_overflow_error :
    scan (r"[#18446744073709551616]").data = .error ScanErr.overflow := by
  rfl

/-- Connection table with the entry for a label guaranteed present: the
table unchanged when the label already has an entry, and extended with an
empty stack otherwise. This is the shape a table has after a pop of that
label, since popping removes only the top of the stack, not the entry. -/
def ctabInit (c : Ctab) (n : Nat) : Ctab :=
  match c with
  | [] => [(n, [])]
  | (k, s) :: rest => if k = n then (k, s) :: rest else (k, s) :: ctabInit rest n

theorem ctabPop_ctabPush (c : Ctab) (n a : Nat) :
    ctabPop (ctabPush c n a) n = .ok (a, ctabInit c n) := by
  induction c with
  | nil => simp [ctabPush, ctabPop, ctabInit]
  | cons h rest ih =>
    obtain ⟨k, s⟩ := h
    by_cases hk : k = n
    · subst hk
      simp [ctabPush, ctabPop, ctabInit, List.getLast?_concat, List.dropLast_concat]
    · simp [ctabPush, ctabPop, ctabInit, hk, ih]

theorem ctabInit_ctabPush (c : Ctab) (n a : Nat) :
    ctabInit (ctabPush c n a) n = ctabPush c n a := by
  induction c with
  | nil => simp [ctabPush, ctabInit]
  | cons h rest ih =>
    obtain ⟨k, s⟩ := h
    by_cases hk : k = n
    · subst hk; simp [ctabPush, ctabInit]
    · simp [ctabPush, ctabInit, hk, ih]

theorem ctabInit_idem (c : Ctab) (n : Nat) :
    ctabInit (ctabInit c n) n = ctabInit c n := by
  induction c with
  | nil => simp [ctabInit]
  | cons h rest ih =>
    obtain ⟨k, s⟩ := h
    by_cases hk : k = n
    · subst hk; simp [ctabInit]
    · simp [ctabInit, hk, ih]

/-- C7: the connection table used by the evaluator (ctabPush is the push
in Evaluator::atom and Evaluator::grouping, ctabPop the pop of
Evaluator::get_connection) is last-in-first-out per label. Pushing the
same label a second time before it is popped stacks both pending indices
and the pop returns the most recently pushed one, leaving the earlier
push intact (so of two opens of one label the later is closed first);
popping a single push returns that index and keeps the label's entry; and
a label may be reused after having been closed once, with the new push
popped as usual. -/
theorem ctab_stack_semantics (c : Ctab) (n a b : Nat) :
    ctabPop (ctabPush (ctabPush c n a) n b) n = .ok (b, ctabPush c n a) ∧
    ctabPop (ctabPush c n a) n = .ok (a, ctabInit c n) ∧
    ctabPop (ctabPush (ctabInit c n) n b) n = .ok (b, ctabInit c n) := by
  refine ⟨?_, ctabPop_ctabPush c n a, ?_⟩
  · rw [ctabPop_ctabPush, ctabInit_ctabPush]
  · rw [ctabPop_ctabPush, ctabInit_idem]

theorem bonds_ord_append {l : List Bond} {x : Bond}
    (h : ∀ b ∈ l, b.atom1 ≤ b.atom2) (hx : x.atom1 ≤ x.atom2) :
    ∀ b ∈ l ++ [x], b.atom1 ≤ b.atom2 := by
  intro b hb
  rcases List.mem_append.mp hb with h1 | h1
  · exact h b h1
  · rcases List.mem_singleton.mp h1 with rfl
    exact hx

/-- C3 amended: every bond appended by Evaluator::grouping has its
endpoint pair normalized to (min, max) by numeric index, so a
ring-closure label opened at atom A and closed at atom B inside a
parenthesized grouping yields the bond (min(A,B), max(A,B)) regardless of
which side opened first; top-level resolution (Evaluator::bond) does not
normalize, as the counterexample shows. -/
theorem grouping_bonds_normalized (f : Nat) :
    ∀ (g : List Expr) (i : Nat) (st st' : EvalState),
      (∀ b ∈ st.bonds, b.atom1 ≤ b.atom2) →
      evalGroup f g i st = .ok st' →
      ∀ b ∈ st'.bonds, b.atom1 ≤ b.atom2 := by
  induction f with
  | zero =>
    intro g i st st' hord h
    simp [evalGroup] at h
  | succ f ih =>
    intro g i st st' hord h
    rw [evalGroup] at h
    split at h
    · cases h
      exact hord
    · split at h
      · refine ih _ _ _ _ ?_ h
        exact hord
      · refine ih _ _ _ _ ?_ h
        exact hord
    · split at h
      · cases h
      · split at h
        · cases h
        · refine ih _ _ _ _ ?_ h
          exact bonds_ord_append hord min_le_max
        · split at h
          · cases h
          · refine ih _ _ _ _ ?_ h
            exact bonds_ord_append hord min_le_max
        · cases h
    · split at h
      · cases h
      · next st2 he =>
        refine ih _ _ _ _ ?_ h
        exact ih _ _ _ _ hord he
    · cases h

/-- Witness for the amended C3 theorem at a concrete grouping: the bond
produced for the group (-[#8:2]) after the atom [#6:1] is (1, 2), an
ordered pair. -/
theorem grouping_bonds_normalized_witness :
    (Bond.mk 1 2 BondOrder.Single).atom1 ≤ (Bond.mk 1 2 BondOrder.Single).atom2 :=
  grouping_bonds_normalized 3
    [Expr.bond BondOrder.Single, Expr.atom ⟨8, 0, 0, Chiral.None, 2⟩] 0
    ⟨[⟨6, 0, 0, Chiral.None, 1⟩], [], []⟩
    ⟨[⟨6, 0, 0, Chiral.None, 1⟩, ⟨8, 0, 0, Chiral.None, 2⟩],
     [⟨1, 2, BondOrder.Single⟩], []⟩
    (by simp) (by rfl) (Bond.mk 1 2 BondOrder.Single) (by simp)

theorem parseBondE_eq (ts : List Token) (cur : Nat) (t : Token)
    (h : ts[cur]? = some t) (hEnd : t ≠ Token.End) :
    parseBondE ⟨ts, cur⟩ =
      match bondOf t with
      | some o => .ok (o, ⟨ts, cur + 1⟩)
      | none => .error ParseErr.unknownBond := by
  cases t <;> first
    | exact absurd rfl hEnd
    | simp [parseBondE, advanceT, peekT, h, Token.is_end, bondOf]

/-- C5: bond-order expression parsing consumes exactly one token (the
success state has the cursor advanced by exactly one position) and maps
it through the symbol table: dash to single, the double-bond symbol to
double, the colon to aromatic, the triple-bond symbol to triple, the
stereo marker to ring, the down symbol to down and the up symbol to up;
any token outside the table is the fatal unknown bond component error. -/
theorem bond_parse_consumes_exactly_one (ts : List Token) (cur : Nat) (t : Token)
    (h : ts[cur]? = some t) (hEnd : t ≠ Token.End) :
    (∀ o, bondOf t = some o → parseBondE ⟨ts, cur⟩ = .ok (o, ⟨ts, cur + 1⟩)) ∧
    (bondOf t = none → parseBondE ⟨ts, cur⟩ = .error ParseErr.unknownBond) ∧
    bondOf Token.Dash = some BondOrder.Single ∧
    bondOf Token.DoubleBond = some BondOrder.Double ∧
    bondOf Token.Colon = some BondOrder.Aromatic ∧
    bondOf Token.TripleBond = some BondOrder.Triple ∧
    bondOf Token.At = some BondOrder.Ring ∧
    bondOf Token.DownBond = some BondOrder.Down ∧
    bondOf Token.UpBond = some BondOrder.Up := by
  have he := parseBondE_eq ts cur t h hEnd
  refine ⟨?_, ?_, rfl, rfl, rfl, rfl, rfl, rfl, rfl⟩
  · intro o ho
    rw [he, ho]
  · intro ho
    rw [he, ho]

theorem bond_parse_consumes_exactly_one_witness :
    parseBondE ⟨[Token.DoubleBond, Token.End], 0⟩ =
      .ok (BondOrder.Double, ⟨[Token.DoubleBond, Token.End], 1⟩) :=
  (bond_parse_consumes_exactly_one [Token.DoubleBond, Token.End] 0
    Token.DoubleBond rfl (by decide)).1 BondOrder.Double rfl

/-- C4: a bare unsigned-integer token at the top-level parse loop yields a
standalone Connector expression carrying that integer, the cursor
advancing by exactly one token before the loop continues; and the integer
cannot be absorbed into a bond-order expression, since bond parsing
rejects a bare integer token as an unknown bond component. -/
theorem connector_emitted_top_level (f : Nat) (ts : List Token) (cur n : Nat)
    (h : ts[cur]? = some (Token.Digit n)) :
    parseLoop (f + 1) ⟨ts, cur⟩ =
      (match parseLoop f ⟨ts, cur + 1⟩ with
       | .error e => .error e
       | .ok (es, s2) => .ok (Expr.connect n :: es, s2)) ∧
    parseBondE ⟨ts, cur⟩ = .error ParseErr.unknownBond := by
  constructor
  · simp [parseLoop, peekT, advanceT, Token.is_end, h]
  · rw [parseBondE_eq ts cur (Token.Digit n) h (fun hx => Token.noConfusion hx)]
    rfl

theorem connector_emitted_top_level_witness :
    parseLoop 2 ⟨[Token.Digit 7, Token.End], 0⟩ =
      (match parseLoop 1 ⟨[Token.Digit 7, Token.End], 1⟩ with
       | .error e => .error e
       | .ok (es, s2) => .ok (Expr.connect 7 :: es, s2)) ∧
    parseBondE ⟨[Token.Digit 7, Token.End], 0⟩ = .error ParseErr.unknownBond :=
  connector_emitted_top_level 1 [Token.Digit 7, Token.End] 0 7 rfl

theorem get_digits_append (ds rest : List Char)
    (hds : ∀ c ∈ ds, c.isDigit = true)
    (hrest : ∀ c, rest.head? = some c → c.isDigit = false) :
    get_digits (ds ++ rest) = (ds, rest) := by
  induction ds with
  | nil =>
    simp only [List.nil_append]
    cases rest with
    | nil => rfl
    | cons c r =>
      have hc := hrest c rfl
      simp [get_digits, hc]
  | cons c ds ih =>
    have hc : c.isDigit = true := hds c (List.mem_cons_self c ds)
    have ih2 := ih (fun x hx => hds x (List.mem_cons_of_mem c hx))
    simp [get_digits, hc, ih2]

/-- C9 amended: in the scanner, a hash followed by zero decimal digits
yields the triple-bond token, while a hash followed by one or more digits
parses the maximal contiguous run of digits and yields an atomic-number
token with that value when it fits in the 64-bit usize, and fails with
the overflow panic of parse().unwrap() otherwise; the choice between the
two token kinds depends only on whether a digit immediately follows the
hash. -/
theorem hash_disambiguation (f : Nat) (ds rest : List Char)
    (hds : ∀ c ∈ ds, c.isDigit = true)
    (hrest : ∀ c, rest.head? = some c → c.isDigit = false) :
    (ds = [] →
      scanF (f + 1) ('#' :: rest) =
        (scanF f rest).map (fun ts => Token.TripleBond :: ts)) ∧
    (ds ≠ [] → digitsVal ds < 2 ^ 64 →
      scanF (f + 1) ('#' :: (ds ++ rest)) =
        (scanF f rest).map (fun ts => Token.Atom (digitsVal ds) :: ts)) ∧
    (ds ≠ [] → ¬digitsVal ds < 2 ^ 64 →
      scanF (f + 1) ('#' :: (ds ++ rest)) = .error ScanErr.overflow) := by
  have hgd := get_digits_append ds rest hds hrest
  refine ⟨?_, ?_, ?_⟩
  · intro hd
    subst hd
    simp only [List.nil_append] at hgd
    simp [scanF, scanStep, hgd]
  · intro hne hlt
    have hemp : ds.isEmpty = false := by
      cases ds with
      | nil => exact absurd rfl hne
      | cons c ds => rfl
    have hlt2 : digitsVal ds < 18446744073709551616 := hlt
    simp [scanF, scanStep, hgd, hemp, parseUsize, hlt2]
  · intro hne hlt
    have hemp : ds.isEmpty = false := by
      cases ds with
      | nil => exact absurd rfl hne
      | cons c ds => rfl
    have hlt2 : ¬digitsVal ds < 18446744073709551616 := hlt
    simp [scanF, scanStep, hgd, hemp, parseUsize, hlt2]

theorem hash_disambiguation_witness :
    (([] : List Char) = [] →
      scanF 3 ('#' :: [']']) =
        (scanF 2 [']']).map (fun ts => Token.TripleBond :: ts)) ∧
    ((['7'] : List Char) = [] → digitsVal ['7'] < 2 ^ 64 →
      scanF 3 ('#' :: ([] ++ [']'])) =
        (scanF 2 [']']).map (fun ts => Token.Atom (digitsVal ['7']) :: ts)) ∧
    ((['7'] : List Char) ≠ [] → digitsVal ['7'] < 2 ^ 64 →
      scanF 3 ('#' :: (['7'] ++ [']'])) =
        (scanF 2 [']']).map (fun ts => Token.Atom (digitsVal ['7']) :: ts)) := by
  refine ⟨(hash_disambiguation 2 [] [']'] (by decide) ?_).1, fun hx => absurd hx (by decide),
    (hash_disambiguation 2 ['7'] [']'] (by decide) ?_).2.1⟩ <;>
    (intro c hc; cases hc; rfl)

/-- Token sequences whose final element is the End token, as every
sequence produced by the scanner is. -/
def lastEnd (ts : List Token) : Prop := ts.getLast? = some Token.End

theorem lastEnd_getElem {ts : List Token} (hl : lastEnd ts) :
    ts[ts.length - 1]? = some Token.End := by
  rw [← List.getLast?_eq_getElem?]
  exact hl

theorem succ_lt_of_get_ne_end {ts : List Token} {cur : Nat}
    (hl : lastEnd ts) (hc : cur < ts.length) {t : Token}
    (ht : ts[cur]? = some t) (hne : t ≠ Token.End) :
    cur + 1 < ts.length := by
  rcases Nat.lt_or_ge (cur + 1) ts.length with h | h
  · exact h
  · exfalso
    have hcur : cur = ts.length - 1 := by omega
    rw [hcur, lastEnd_getElem hl] at ht
    cases ht
    exact hne rfl

theorem advanceT_of_end {ts : List Token} {cur : Nat}
    (h : ts[cur]? = some Token.End) :
    advanceT ⟨ts, cur⟩ = .ok (Token.End, ⟨ts, cur⟩) := by
  simp [advanceT, peekT, h, Token.is_end]

theorem advanceT_of_ne {ts : List Token} {cur : Nat} {t : Token}
    (h : ts[cur]? = some t) (hne : t ≠ Token.End) :
    advanceT ⟨ts, cur⟩ = .ok (t, ⟨ts, cur + 1⟩) := by
  have hb : t.is_end = false := by
    cases t <;> first | rfl | exact absurd rfl hne
  simp [advanceT, peekT, h, hb]

theorem advanceT_bound {ts : List Token} {cur : Nat}
    (hl : lastEnd ts) (hc : cur < ts.length) :
    ∃ t cur2, advanceT ⟨ts, cur⟩ = .ok (t, ⟨ts, cur2⟩) ∧
      cur ≤ cur2 ∧ cur2 < ts.length := by
  have ht : ts[cur]? = some ts[cur] := List.getElem?_eq_getElem hc
  by_cases he : ts[cur] = Token.End
  · rw [he] at ht
    exact ⟨Token.End, cur, advanceT_of_end ht, Nat.le_refl _, hc⟩
  · exact ⟨ts[cur], cur + 1, advanceT_of_ne ht he, Nat.le_succ _,
      succ_lt_of_get_ne_end hl hc ht he⟩

theorem getLast?_cons_of {α : Type} {l : List α} {x y : α}
    (h : l.getLast? = some x) : (y :: l).getLast? = some x := by
  cases l with
  | nil => simp at h
  | cons a l =>
    rw [List.getLast?_cons_cons]
    exact h

theorem map_cons_lastEnd {e : Except ScanErr (List Token)} {t : Token}
    {ts : List Token}
    (ihe : ∀ ts2, e = .ok ts2 → ts2.getLast? = some Token.End)
    (h : e.map (fun l => t :: l) = .ok ts) :
    ts.getLast? = some Token.End := by
  cases e with
  | error err => simp [Except.map] at h
  | ok l =>
    simp [Except.map] at h
    subst h
    exact getLast?_cons_of (ihe l rfl)

theorem scanF_lastEnd (f : Nat) :
    ∀ cs ts, scanF f cs = .ok ts → ts.getLast? = some Token.End := by
  induction f with
  | zero =>
    intro cs ts h
    simp [scanF] at h
  | succ f ih =>
    intro cs ts h
    cases cs with
    | nil =>
      rw [scanF] at h
      cases h
      rfl
    | cons c cs =>
      rw [scanF] at h
      cases hs : scanStep c cs with
      | tok t rest =>
        rw [hs] at h
        exact map_cons_lastEnd (ih rest) h
      | err e =>
        rw [hs] at h
        cases h

theorem atomB_step_err {ts : List Token} {cur : Nat} (e : ParseErr)
    (hef : e ≠ ParseErr.fuel) (hei : e ≠ ParseErr.index)
    {r : Except ParseErr (Atom × ParserState)} (hr : r = .error e) :
    r ≠ .error ParseErr.fuel ∧ r ≠ .error ParseErr.index ∧
    ∀ a s2, r = .ok (a, s2) →
      s2.tokens = ts ∧ cur < s2.cur ∧ s2.cur < ts.length := by
  subst hr
  refine ⟨?_, ?_, ?_⟩
  · intro h
    exact hef (Except.error.inj h)
  · intro h
    exact hei (Except.error.inj h)
  · intro a s2 h
    cases h

theorem atomB_step_ok {ts : List Token} {cur cur2 : Nat} {a0 : Atom}
    (hlt : cur < cur2) (hlen : cur2 < ts.length)
    {r : Except ParseErr (Atom × ParserState)}
    (hr : r = .ok (a0, ⟨ts, cur2⟩)) :
    r ≠ .error ParseErr.fuel ∧ r ≠ .error ParseErr.index ∧
    ∀ a s2, r = .ok (a, s2) →
      s2.tokens = ts ∧ cur < s2.cur ∧ s2.cur < ts.length := by
  subst hr
  refine ⟨?_, ?_, ?_⟩
  · intro h
    cases h
  · intro h
    cases h
  · intro a s2 h
    cases h
    exact ⟨rfl, hlt, hlen⟩

theorem atomB_step_ih {f : Nat} {ts : List Token} {cur cur2 : Nat} {acc2 : Atom}
    (hcur : cur < cur2)
    (hih : parseAtomB f ⟨ts, cur2⟩ acc2 ≠ .error ParseErr.fuel ∧
           parseAtomB f ⟨ts, cur2⟩ acc2 ≠ .error ParseErr.index ∧
           ∀ a s2, parseAtomB f ⟨ts, cur2⟩ acc2 = .ok (a, s2) →
             s2.tokens = ts ∧ cur2 < s2.cur ∧ s2.cur < ts.length)
    {r : Except ParseErr (Atom × ParserState)}
    (hr : r = parseAtomB f ⟨ts, cur2⟩ acc2) :
    r ≠ .error ParseErr.fuel ∧ r ≠ .error ParseErr.index ∧
    ∀ a s2, r = .ok (a, s2) →
      s2.tokens = ts ∧ cur < s2.cur ∧ s2.cur < ts.length := by
  subst hr
  refine ⟨hih.1, hih.2.1, fun a s2 h => ?_⟩
  obtain ⟨h1, h2, h3⟩ := hih.2.2 a s2 h
  exact ⟨h1, Nat.lt_trans hcur h2, h3⟩

/-- Cursor safety for the atom-descriptor loop: on End-terminated token
sequences with the cursor in bounds and fuel above the remaining token
count, parseAtomB neither exhausts its fuel nor indexes out of bounds,
and on success it has advanced the cursor while staying in bounds. -/
theorem parseAtomB_no_overrun (f : Nat) :
    ∀ (ts : List Token) (cur : Nat) (acc : Atom),
      lastEnd ts → cur < ts.length → ts.length - cur < f →
      parseAtomB f ⟨ts, cur⟩ acc ≠ .error ParseErr.fuel ∧
      parseAtomB f ⟨ts, cur⟩ acc ≠ .error ParseErr.index ∧
      ∀ a s2, parseAtomB f ⟨ts, cur⟩ acc = .ok (a, s2) →
        s2.tokens = ts ∧ cur < s2.cur ∧ s2.cur < ts.length := by
  induction f with
  | zero =>
    intro ts cur acc hl hc hf
    exact absurd hf (Nat.not_lt_zero _)
  | succ f ih =>
    intro ts cur acc hl hc hf
    have ht : ts[cur]? = some ts[cur] := List.getElem?_eq_getElem hc
    cases hval : ts[cur]
    case End =>
      rw [hval] at ht
      exact atomB_step_err ParseErr.eofInAtom (by decide) (by decide)
        (by simp [parseAtomB, advanceT, peekT, ht, Token.is_end])
    case RBrack =>
      rw [hval] at ht
      have hne : Token.RBrack ≠ Token.End := by decide
      have hlt1 := succ_lt_of_get_ne_end hl hc ht hne
      have hstep : parseAtomB (f + 1) ⟨ts, cur⟩ acc = .ok (acc, ⟨ts, cur + 1⟩) := by
        simp [parseAtomB, advanceT, peekT, ht, Token.is_end]
      exact atomB_step_ok (Nat.lt_succ_self _) hlt1 hstep
    case Atom n =>
      rw [hval] at ht
      have hne : Token.Atom n ≠ Token.End := fun hx => Token.noConfusion hx
      have hlt1 := succ_lt_of_get_ne_end hl hc ht hne
      have hstep : parseAtomB (f + 1) ⟨ts, cur⟩ acc =
          parseAtomB f ⟨ts, cur + 1⟩ { acc with atomic_number := n } := by
        simp [parseAtomB, advanceT, peekT, ht, Token.is_end]
      exact atomB_step_ih (Nat.lt_succ_self _)
        (ih ts (cur + 1) { acc with atomic_number := n } hl hlt1 (by omega)) hstep
    case HCount n =>
      rw [hval] at ht
      have hne : Token.HCount n ≠ Token.End := fun hx => Token.noConfusion hx
      have hlt1 := succ_lt_of_get_ne_end hl hc ht hne
      have hstep : parseAtomB (f + 1) ⟨ts, cur⟩ acc =
          parseAtomB f ⟨ts, cur + 1⟩ { acc with n_hydrogens := n } := by
        simp [parseAtomB, advanceT, peekT, ht, Token.is_end]
      exact atomB_step_ih (Nat.lt_succ_self _)
        (ih ts (cur + 1) { acc with n_hydrogens := n } hl hlt1 (by omega)) hstep
    case Plus n =>
      rw [hval] at ht
      have hne : Token.Plus n ≠ Token.End := fun hx => Token.noConfusion hx
      have hlt1 := succ_lt_of_get_ne_end hl hc ht hne
      have hstep : parseAtomB (f + 1) ⟨ts, cur⟩ acc =
          parseAtomB f ⟨ts, cur + 1⟩ { acc with charge := (n : Int) } := by
        simp [parseAtomB, advanceT, peekT, ht, Token.is_end]
      exact atomB_step_ih (Nat.lt_succ_self _)
        (ih ts (cur + 1) { acc with charge := (n : Int) } hl hlt1 (by omega)) hstep
    case Colon =>
      rw [hval] at ht
      have hne : Token.Colon ≠ Token.End := by decide
      have hlt1 := succ_lt_of_get_ne_end hl hc ht hne
      have ht2 : ts[cur + 1]? = some ts[cur + 1] := List.getElem?_eq_getElem hlt1
      cases hval2 : ts[cur + 1]
      case Digit i =>
        rw [hval2] at ht2
        have hne2 : Token.Digit i ≠ Token.End := fun hx => Token.noConfusion hx
        have hlt2 := succ_lt_of_get_ne_end hl hlt1 ht2 hne2
        have hstep : parseAtomB (f + 1) ⟨ts, cur⟩ acc =
            parseAtomB f ⟨ts, cur + 1 + 1⟩ { acc with mol_index := i } := by
          simp [parseAtomB, advanceT, peekT, ht, ht2, Token.is_end]
        exact atomB_step_ih (by omega)
          (ih ts (cur + 1 + 1) { acc with mol_index := i } hl hlt2 (by omega)) hstep
      all_goals
        rw [hval2] at ht2
        exact atomB_step_err ParseErr.colonNoIndex (by decide) (by decide)
          (by simp [parseAtomB, advanceT, peekT, ht, ht2, Token.is_end])
    case Dash =>
      rw [hval] at ht
      have hne : Token.Dash ≠ Token.End := by decide
      have hlt1 := succ_lt_of_get_ne_end hl hc ht hne
      have ht2 : ts[cur + 1]? = some ts[cur + 1] := List.getElem?_eq_getElem hlt1
      cases hval2 : ts[cur + 1]
      case Digit i =>
        rw [hval2] at ht2
        have hne2 : Token.Digit i ≠ Token.End := fun hx => Token.noConfusion hx
        have hlt2 := succ_lt_of_get_ne_end hl hlt1 ht2 hne2
        have hstep : parseAtomB (f + 1) ⟨ts, cur⟩ acc =
            parseAtomB f ⟨ts, cur + 1 + 1⟩ { acc with charge := -(i : Int) } := by
          simp [parseAtomB, advanceT, peekT, ht, ht2, Token.is_end]
        exact atomB_step_ih (by omega)
          (ih ts (cur + 1 + 1) { acc with charge := -(i : Int) } hl hlt2 (by omega)) hstep
      all_goals
        rw [hval2] at ht2
        have hstep : parseAtomB (f + 1) ⟨ts, cur⟩ acc =
            parseAtomB f ⟨ts, cur + 1⟩ { acc with charge := -1 } := by
          simp [parseAtomB, advanceT, peekT, ht, ht2, Token.is_end]
        exact atomB_step_ih (Nat.lt_succ_self _)
          (ih ts (cur + 1) { acc with charge := -1 } hl hlt1 (by omega)) hstep
    case At =>
      rw [hval] at ht
      have hne : Token.At ≠ Token.End := by decide
      have hlt1 := succ_lt_of_get_ne_end hl hc ht hne
      have ht2 : ts[cur + 1]? = some ts[cur + 1] := List.getElem?_eq_getElem hlt1
      cases hval2 : ts[cur + 1]
      case At =>
        rw [hval2] at ht2
        have hne2 : Token.At ≠ Token.End := by decide
        have hlt2 := succ_lt_of_get_ne_end hl hlt1 ht2 hne2
        have hstep : parseAtomB (f + 1) ⟨ts, cur⟩ acc =
            parseAtomB f ⟨ts, cur + 1 + 1⟩ { acc with chirality := Chiral.Cw } := by
          simp [parseAtomB, advanceT, peekT, ht, ht2, Token.is_end]
        exact atomB_step_ih (by omega)
          (ih ts (cur + 1 + 1) { acc with chirality := Chiral.Cw } hl hlt2 (by omega)) hstep
      all_goals
        rw [hval2] at ht2
        have hstep : parseAtomB (f + 1) ⟨ts, cur⟩ acc =
            parseAtomB f ⟨ts, cur + 1⟩ { acc with chirality := Chiral.Acw } := by
          simp [parseAtomB, advanceT, peekT, ht, ht2, Token.is_end]
        exact atomB_step_ih (Nat.lt_succ_self _)
          (ih ts (cur + 1) { acc with chirality := Chiral.Acw } hl hlt1 (by omega)) hstep
    all_goals
      rw [hval] at ht
      exact atomB_step_err ParseErr.unknownAtom (by decide) (by decide)
        (by simp [parseAtomB, advanceT, peekT, ht, Token.is_end])

theorem loop_step_err {ts : List Token} {cur : Nat} (e : ParseErr)
    (hef : e ≠ ParseErr.fuel) (hei : e ≠ ParseErr.index)
    {r : Except ParseErr (List Expr × ParserState)} (hr : r = .error e) :
    r ≠ .error ParseErr.fuel ∧ r ≠ .error ParseErr.index ∧
    ∀ es s2, r = .ok (es, s2) →
      s2.tokens = ts ∧ cur ≤ s2.cur ∧ s2.cur < ts.length := by
  subst hr
  refine ⟨?_, ?_, ?_⟩
  · intro h
    exact hef (Except.error.inj h)
  · intro h
    exact hei (Except.error.inj h)
  · intro es s2 h
    cases h

theorem loop_step_ok {ts : List Token} {cur : Nat}
    (hc : cur < ts.length)
    {r : Except ParseErr (List Expr × ParserState)}
    (hr : r = .ok ([], ⟨ts, cur⟩)) :
    r ≠ .error ParseErr.fuel ∧ r ≠ .error ParseErr.index ∧
    ∀ es s2, r = .ok (es, s2) →
      s2.tokens = ts ∧ cur ≤ s2.cur ∧ s2.cur < ts.length := by
  subst hr
  refine ⟨?_, ?_, ?_⟩
  · intro h
    cases h
  · intro h
    cases h
  · intro es s2 h
    cases h
    exact ⟨rfl, Nat.le_refl _, hc⟩

theorem loop_propagate {ts : List Token} {cur cur2 : Nat} {x : Expr}
    {B : Except ParseErr (List Expr × ParserState)}
    {r : Except ParseErr (List Expr × ParserState)}
    (hr : r = match B with
              | .error e => .error e
              | .ok (es, s2) => .ok (x :: es, s2))
    (hle : cur ≤ cur2)
    (hB1 : B ≠ .error ParseErr.fuel) (hB2 : B ≠ .error ParseErr.index)
    (hB3 : ∀ es s2, B = .ok (es, s2) →
      s2.tokens = ts ∧ cur2 ≤ s2.cur ∧ s2.cur < ts.length) :
    r ≠ .error ParseErr.fuel ∧ r ≠ .error ParseErr.index ∧
    ∀ es s2, r = .ok (es, s2) →
      s2.tokens = ts ∧ cur ≤ s2.cur ∧ s2.cur < ts.length := by
  cases B with
  | error e =>
    subst hr
    refine ⟨hB1, hB2, ?_⟩
    intro es s2 h
    cases h
  | ok p =>
    obtain ⟨es0, s0⟩ := p
    subst hr
    refine ⟨?_, ?_, ?_⟩
    · intro h
      cases h
    · intro h
      cases h
    · intro es s2 h
      cases h
      obtain ⟨h1, h2, h3⟩ := hB3 es0 s0 rfl
      exact ⟨h1, Nat.le_trans hle h2, h3⟩

theorem loop_after_atom {ts : List Token} {cur cur1 : Nat}
    {A : Except ParseErr (Atom × ParserState)}
    {L : ParserState → Except ParseErr (List Expr × ParserState)}
    {r : Except ParseErr (List Expr × ParserState)}
    (hr : r = match A with
              | .error e => .error e
              | .ok (a, s1) =>
                match L s1 with
                | .error e => .error e
                | .ok (es, s2) => .ok (Expr.atom a :: es, s2))
    (hle : cur ≤ cur1)
    (hA1 : A ≠ .error ParseErr.fuel) (hA2 : A ≠ .error ParseErr.index)
    (hA3 : ∀ a s2, A = .ok (a, s2) →
      s2.tokens = ts ∧ cur1 < s2.cur ∧ s2.cur < ts.length)
    (hloop : ∀ cur2, cur1 < cur2 → cur2 < ts.length →
      L ⟨ts, cur2⟩ ≠ .error ParseErr.fuel ∧
      L ⟨ts, cur2⟩ ≠ .error ParseErr.index ∧
      ∀ es s2, L ⟨ts, cur2⟩ = .ok (es, s2) →
        s2.tokens = ts ∧ cur2 ≤ s2.cur ∧ s2.cur < ts.length) :
    r ≠ .error ParseErr.fuel ∧ r ≠ .error ParseErr.index ∧
    ∀ es s2, r = .ok (es, s2) →
      s2.tokens = ts ∧ cur ≤ s2.cur ∧ s2.cur < ts.length := by
  cases A with
  | error e =>
    simp only [] at hr
    subst hr
    refine ⟨?_, ?_, ?_⟩
    · intro h
      exact hA1 (by rw [Except.error.inj h])
    · intro h
      exact hA2 (by rw [Except.error.inj h])
    · intro es s2 h
      cases h
  | ok p =>
    obtain ⟨a, s1⟩ := p
    obtain ⟨htok, hlt, hlen⟩ := hA3 a s1 rfl
    obtain ⟨ts1, curA⟩ := s1
    cases htok
    simp only [] at hr
    obtain ⟨hB1, hB2, hB3⟩ := hloop curA hlt hlen
    exact loop_propagate hr (Nat.le_of_lt (Nat.lt_of_le_of_lt hle hlt)) hB1 hB2 hB3

theorem loop_after_group {ts : List Token} {cur cur1 : Nat}
    (hl : lastEnd ts)
    {B : Except ParseErr (List Expr × ParserState)}
    {L : ParserState → Except ParseErr (List Expr × ParserState)}
    {r : Except ParseErr (List Expr × ParserState)}
    (hr : r = match B with
              | .error e => .error e
              | .ok (g, s1) =>
                match advanceT s1 with
                | .error e => .error e
                | .ok (_, s3) =>
                  match L s3 with
                  | .error e => .error e
                  | .ok (es, s4) => .ok (Expr.grouping g :: es, s4))
    (hle : cur ≤ cur1)
    (hB1 : B ≠ .error ParseErr.fuel) (hB2 : B ≠ .error ParseErr.index)
    (hB3 : ∀ es s2, B = .ok (es, s2) →
      s2.tokens = ts ∧ cur1 ≤ s2.cur ∧ s2.cur < ts.length)
    (hloop : ∀ cur2, cur1 ≤ cur2 → cur2 < ts.length →
      L ⟨ts, cur2⟩ ≠ .error ParseErr.fuel ∧
      L ⟨ts, cur2⟩ ≠ .error ParseErr.index ∧
      ∀ es s2, L ⟨ts, cur2⟩ = .ok (es, s2) →
        s2.tokens = ts ∧ cur2 ≤ s2.cur ∧ s2.cur < ts.length) :
    r ≠ .error ParseErr.fuel ∧ r ≠ .error ParseErr.index ∧
    ∀ es s2, r = .ok (es, s2) →
      s2.tokens = ts ∧ cur ≤ s2.cur ∧ s2.cur < ts.length := by
  cases B with
  | error e =>
    subst hr
    refine ⟨hB1, hB2, ?_⟩
    intro es s2 h
    cases h
  | ok p =>
    obtain ⟨g, s1⟩ := p
    obtain ⟨htok, hle1, hlen1⟩ := hB3 g s1 rfl
    obtain ⟨ts1, curB⟩ := s1
    cases htok
    obtain ⟨t2, cur3, hadv2, hle2, hlen2⟩ := advanceT_bound hl hlen1
    simp only [] at hr
    rw [hadv2] at hr
    simp only [] at hr
    obtain ⟨hC1, hC2, hC3⟩ := hloop cur3 (Nat.le_trans hle1 hle2) hlen2
    exact loop_propagate hr
      (Nat.le_trans hle (Nat.le_trans hle1 hle2)) hC1 hC2 hC3

/-- Cursor safety for the top-level parse loop: on End-terminated token
sequences with the cursor in bounds and fuel above the remaining token
count, parseLoop neither exhausts its fuel nor indexes out of bounds, and
on success its final cursor is in bounds and has not retreated. -/
theorem parseLoop_no_overrun (f : Nat) :
    ∀ (ts : List Token) (cur : Nat), lastEnd ts → cur < ts.length →
      ts.length - cur < f →
      parseLoop f ⟨ts, cur⟩ ≠ .error ParseErr.fuel ∧
      parseLoop f ⟨ts, cur⟩ ≠ .error ParseErr.index ∧
      ∀ es s2, parseLoop f ⟨ts, cur⟩ = .ok (es, s2) →
        s2.tokens = ts ∧ cur ≤ s2.cur ∧ s2.cur < ts.length := by
  induction f with
  | zero =>
    intro ts cur hl hc hf
    exact absurd hf (Nat.not_lt_zero _)
  | succ f ih =>
    intro ts cur hl hc hf
    have ht : ts[cur]? = some ts[cur] := List.getElem?_eq_getElem hc
    cases hval : ts[cur]
    case End =>
      rw [hval] at ht
      have hstep : parseLoop (f + 1) ⟨ts, cur⟩ = .ok ([], ⟨ts, cur⟩) := by
        simp [parseLoop, peekT, ht]
      exact loop_step_ok hc hstep
    case RParen =>
      rw [hval] at ht
      have hstep : parseLoop (f + 1) ⟨ts, cur⟩ = .ok ([], ⟨ts, cur⟩) := by
        simp [parseLoop, peekT, ht]
      exact loop_step_ok hc hstep
    case Digit n =>
      rw [hval] at ht
      have hlt1 := succ_lt_of_get_ne_end hl hc ht (fun hx => Token.noConfusion hx)
      have hstep : parseLoop (f + 1) ⟨ts, cur⟩ =
          (match parseLoop f ⟨ts, cur + 1⟩ with
           | .error e => .error e
           | .ok (es, s2) => .ok (Expr.connect n :: es, s2)) := by
        simp [parseLoop, peekT, advanceT, ht, Token.is_end]
      obtain ⟨hB1, hB2, hB3⟩ := ih ts (cur + 1) hl hlt1 (by omega)
      exact loop_propagate hstep (Nat.le_succ _) hB1 hB2 hB3
    case LBrack =>
      rw [hval] at ht
      have hlt1 := succ_lt_of_get_ne_end hl hc ht (by decide)
      have hstep : parseLoop (f + 1) ⟨ts, cur⟩ =
          (match parseAtomB f ⟨ts, cur + 1⟩ ⟨0, 0, 0, Chiral.None, 0⟩ with
           | .error e => .error e
           | .ok (a, s1) =>
             match parseLoop f s1 with
             | .error e => .error e
             | .ok (es, s2) => .ok (Expr.atom a :: es, s2)) := by
        simp [parseLoop, parseAtomE, peekT, advanceT, ht, Token.is_end]
      obtain ⟨hA1, hA2, hA3⟩ :=
        parseAtomB_no_overrun f ts (cur + 1) ⟨0, 0, 0, Chiral.None, 0⟩ hl hlt1 (by omega)
      exact loop_after_atom hstep (Nat.le_succ _) hA1 hA2 hA3
        (fun cur2 h1 h2 => ih ts cur2 hl h2 (by omega))
    case LParen =>
      rw [hval] at ht
      have hlt1 := succ_lt_of_get_ne_end hl hc ht (by decide)
      have hstep : parseLoop (f + 1) ⟨ts, cur⟩ =
          (match parseLoop f ⟨ts, cur + 1⟩ with
           | .error e => .error e
           | .ok (g, s1) =>
             match advanceT s1 with
             | .error e => .error e
             | .ok (_, s3) =>
               match parseLoop f s3 with
               | .error e => .error e
               | .ok (es, s4) => .ok (Expr.grouping g :: es, s4)) := by
        simp [parseLoop, peekT, advanceT, ht, Token.is_end]
      obtain ⟨hB1, hB2, hB3⟩ := ih ts (cur + 1) hl hlt1 (by omega)
      exact loop_after_group hl hstep (Nat.le_succ _) hB1 hB2 hB3
        (fun cur2 h1 h2 => ih ts cur2 hl h2 (by omega))
    case Dash =>
      rw [hval] at ht
      have hlt1 := succ_lt_of_get_ne_end hl hc ht (by decide)
      have hstep : parseLoop (f + 1) ⟨ts, cur⟩ =
          (match parseLoop f ⟨ts, cur + 1⟩ with
           | .error e => .error e
           | .ok (es, s2) => .ok (Expr.bond BondOrder.Single :: es, s2)) := by
        simp [parseLoop, parseBondE, bondOf, peekT, advanceT, ht, Token.is_end]
      obtain ⟨hB1, hB2, hB3⟩ := ih ts (cur + 1) hl hlt1 (by omega)
      exact loop_propagate hstep (Nat.le_succ _) hB1 hB2 hB3
    case DoubleBond =>
      rw [hval] at ht
      have hlt1 := succ_lt_of_get_ne_end hl hc ht (by decide)
      have hstep : parseLoop (f + 1) ⟨ts, cur⟩ =
          (match parseLoop f ⟨ts, cur + 1⟩ with
           | .error e => .error e
           | .ok (es, s2) => .ok (Expr.bond BondOrder.Double :: es, s2)) := by
        simp [parseLoop, parseBondE, bondOf, peekT, advanceT, ht, Token.is_end]
      obtain ⟨hB1, hB2, hB3⟩ := ih ts (cur + 1) hl hlt1 (by omega)
      exact loop_propagate hstep (Nat.le_succ _) hB1 hB2 hB3
    case Colon =>
      rw [hval] at ht
      have hlt1 := succ_lt_of_get_ne_end hl hc ht (by decide)
      have hstep : parseLoop (f + 1) ⟨ts, cur⟩ =
          (match parseLoop f ⟨ts, cur + 1⟩ with
           | .error e => .error e
           | .ok (es, s2) => .ok (Expr.bond BondOrder.Aromatic :: es, s2)) := by
        simp [parseLoop, parseBondE, bondOf, peekT, advanceT, ht, Token.is_end]
      obtain ⟨hB1, hB2, hB3⟩ := ih ts (cur + 1) hl hlt1 (by omega)
      exact loop_propagate hstep (Nat.le_succ _) hB1 hB2 hB3
    case TripleBond =>
      rw [hval] at ht
      have hlt1 := succ_lt_of_get_ne_end hl hc ht (by decide)
      have hstep : parseLoop (f + 1) ⟨ts, cur⟩ =
          (match parseLoop f ⟨ts, cur + 1⟩ with
           | .error e => .error e
           | .ok (es, s2) => .ok (Expr.bond BondOrder.Triple :: es, s2)) := by
        simp [parseLoop, parseBondE, bondOf, peekT, advanceT, ht, Token.is_end]
      obtain ⟨hB1, hB2, hB3⟩ := ih ts (cur + 1) hl hlt1 (by omega)
      exact loop_propagate hstep (Nat.le_succ _) hB1 hB2 hB3
    case At =>
      rw [hval] at ht
      have hlt1 := succ_lt_of_get_ne_end hl hc ht (by decide)
      have hstep : parseLoop (f + 1) ⟨ts, cur⟩ =
          (match parseLoop f ⟨ts, cur + 1⟩ with
           | .error e => .error e
           | .ok (es, s2) => .ok (Expr.bond BondOrder.Ring :: es, s2)) := by
        simp [parseLoop, parseBondE, bondOf, peekT, advanceT, ht, Token.is_end]
      obtain ⟨hB1, hB2, hB3⟩ := ih ts (cur + 1) hl hlt1 (by omega)
      exact loop_propagate hstep (Nat.le_succ _) hB1 hB2 hB3
    case DownBond =>
      rw [hval] at ht
      have hlt1 := succ_lt_of_get_ne_end hl hc ht (by decide)
      have hstep : parseLoop (f + 1) ⟨ts, cur⟩ =
          (match parseLoop f ⟨ts, cur + 1⟩ with
           | .error e => .error e
           | .ok (es, s2) => .ok (Expr.bond BondOrder.Down :: es, s2)) := by
        simp [parseLoop, parseBondE, bondOf, peekT, advanceT, ht, Token.is_end]
      obtain ⟨hB1, hB2, hB3⟩ := ih ts (cur + 1) hl hlt1 (by omega)
      exact loop_propagate hstep (Nat.le_succ _) hB1 hB2 hB3
    case UpBond =>
      rw [hval] at ht
      have hlt1 := succ_lt_of_get_ne_end hl hc ht (by decide)
      have hstep : parseLoop (f + 1) ⟨ts, cur⟩ =
          (match parseLoop f ⟨ts, cur + 1⟩ with
           | .error e => .error e
           | .ok (es, s2) => .ok (Expr.bond BondOrder.Up :: es, s2)) := by
        simp [parseLoop, parseBondE, bondOf, peekT, advanceT, ht, Token.is_end]
      obtain ⟨hB1, hB2, hB3⟩ := ih ts (cur + 1) hl hlt1 (by omega)
      exact loop_propagate hstep (Nat.le_succ _) hB1 hB2 hB3
    all_goals
      rw [hval] at ht
      exact loop_step_err ParseErr.unknownBond (by decide) (by decide)
        (by simp [parseLoop, parseBondE, bondOf, peekT, advanceT, ht, Token.is_end])

/-- C10: for every finite token sequence whose final element is End (and
every sequence the scanner returns ends in End, fourth conjunct), the
top-level parse runs at the pipeline fuel without ever returning the
fuel-exhaustion marker (it terminates) and without ever indexing the
token vector out of bounds; moreover advance leaves the cursor unchanged
once the current token is End (third conjunct). -/
theorem parse_terminates_in_bounds (ts : List Token)
    (hEnd : ts.getLast? = some Token.End) :
    parseLoop (ts.length + 1) ⟨ts, 0⟩ ≠ .error ParseErr.fuel ∧
    parseLoop (ts.length + 1) ⟨ts, 0⟩ ≠ .error ParseErr.index ∧
    (∀ (ts2 : List Token) (cur2 : Nat), ts2[cur2]? = some Token.End →
      advanceT ⟨ts2, cur2⟩ = .ok (Token.End, ⟨ts2, cur2⟩)) ∧
    (∀ (cs : List Char) (ts2 : List Token), scan cs = .ok ts2 →
      ts2.getLast? = some Token.End) := by
  have hlen : 0 < ts.length := by
    cases ts with
    | nil => simp at hEnd
    | cons a l => simp
  obtain ⟨h1, h2, _⟩ := parseLoop_no_overrun (ts.length + 1) ts 0 hEnd hlen (by omega)
  exact ⟨h1, h2, fun ts2 cur2 h => advanceT_of_end h,
    fun cs ts2 h => scanF_lastEnd _ cs ts2 h⟩

theorem parse_terminates_in_bounds_witness :
    parseLoop 2 ⟨[Token.End], 0⟩ ≠ .error ParseErr.fuel ∧
    parseLoop 2 ⟨[Token.End], 0⟩ ≠ .error ParseErr.index ∧
    advanceT ⟨[Token.End], 0⟩ = .ok (Token.End, ⟨[Token.End], 0⟩) ∧
    (scan [] = .ok [Token.End] → [Token.End].getLast? = some Token.End) :=
  have h := parse_terminates_in_bounds [Token.End] rfl
  ⟨h.1, h.2.1, h.2.2.1 [Token.End] 0 rfl, fun hx => h.2.2.2 [] [Token.End] hx⟩

end Chomper
